import Mathlib

/-!
# Verification of `lsl::consumer_queue` (src/src/consumer_queue.h)

A shallow embedding of the bounded single-producer / multi-consumer ring
buffer of liblsl's `consumer_queue`, together with proofs of the testable
properties stated in the specification.

The embedding gives the *sequential* (interleaving-free) semantics of the
operations: every atomic load returns the value of the corresponding state
component, and the compare-and-swap in `try_pop` succeeds whenever its
expected value matches (no concurrent consumer can intervene between the
load and the CAS in a sequential execution).  The retry arm of `try_pop`
("we're behind or ahead of another pop") re-reads an unchanged cursor and
would therefore loop forever in a sequential execution; it is modelled by
the `none` result of an `Option`.

Payloads (`sample_p`, a shared-ownership handle) are modelled as
`Option Nat`: `none` is the empty handle, and moving a handle out of a slot
leaves `none` behind, exactly like moving a `shared_ptr`.

Machine integers: all the C++ index arithmetic is on `std::size_t`, but the
values involved are kept below `wrap_at_ = 2 * size_` by the algorithm
itself (this is proved below), so plain `Nat` with explicit `%` is a
faithful model; no overflow can occur for any realistic capacity.
-/

namespace ConsumerQueue

/-- One `item_t` of the ring buffer: an atomic readiness marker
(`seq_state`) plus a payload handle (`value`).

The `unread` field is a *ghost* flag that is not present in the source; it
records the specification-level notion "this slot currently holds an unread
value".  It is set by the successful `try_push` store and cleared when a
`try_pop` claims the slot.  No operation ever branches on it, so erasing it
yields exactly the source behaviour; it exists only so that refinement
statements ("number of slots holding an unread value") can be expressed. -/
structure Item where
  seq_state : Nat
  value : Option Nat
  unread : Bool
deriving DecidableEq

instance : Inhabited Item := ⟨⟨0, none, false⟩⟩

/-- The state of a `consumer_queue`: capacity `size` (C), wrap threshold
`wrap_at` (M = 2C), the slot array `buffer`, the one-time synchronization
flag `done_sync`, and the two cursors.  The mutex / condition variable pair
and the never-read `has_waiter_` flag have no observable sequential state
and are not represented; the registry is outside the core (§6 of the
spec). -/
structure Queue where
  size : Nat
  wrap_at : Nat
  buffer : List Item
  done_sync : Bool
  write_idx : Nat
  read_idx : Nat
deriving DecidableEq

/-- `add_wrap`: add `delta` to index `x` and wrap at `wrap_at_`, by a single
conditional subtraction. -/
def add_wrap (q : Queue) (x delta : Nat) : Nat :=
  let xp := x + delta
  if q.wrap_at ≤ xp then xp - q.wrap_at else xp

/-- Modelled from the spec: the constructor `consumer_queue::consumer_queue`
lives in `consumer_queue.cpp`, which is not among the sources.  Per §3 of
the spec: capacity `C = size`, index space modulo `M = 2·C`
(`wrap_at_ = 2 * size_`), `readiness[i] = i` for all `i` ("all free"),
cursors at 0, and the latched sync flag initially unset. -/
def init (size : Nat) : Queue :=
  { size := size
    wrap_at := 2 * size
    buffer := (List.range size).map (fun i => ⟨i, none, false⟩)
    done_sync := false
    write_idx := 0
    read_idx := 0 }

/-- `try_push`: attempt to store `x` at the write cursor's slot.  Fails
(returning the state unchanged) when the slot's readiness marker differs
from the write cursor; otherwise advances the write cursor, writes the
payload and publishes the new marker. -/
def try_push (q : Queue) (x : Nat) : Queue × Bool :=
  let write_index := q.write_idx
  let next_idx := add_wrap q write_index 1
  let i := write_index % q.size
  let item := q.buffer.getD i default
  if item.seq_state ≠ write_index then (q, false)
  else
    ({ q with
        write_idx := next_idx
        buffer := q.buffer.set i ⟨next_idx, some x, true⟩ }, true)

/-- `try_pop`, sequential semantics.  `clear` records whether a result
reference was passed (`move_or_drop` with a destination moves the handle
out of the slot, leaving an empty handle; with no destination the handle
stays in the slot).  Returns `some (q', success, payload)`; the diverging
retry arm (`seq_state` neither `read_index` nor `next_idx`, impossible in a
reachable sequential state) is `none`. -/
def try_pop_aux (q : Queue) (clear : Bool) : Option (Queue × Bool × Option Nat) :=
  let read_index := q.read_idx
  let i := read_index % q.size
  let item := q.buffer.getD i default
  let seq_state := item.seq_state
  let next_idx := add_wrap q read_index 1
  if seq_state = next_idx then
    some ({ q with
            read_idx := next_idx
            buffer := q.buffer.set i
              ⟨add_wrap q read_index q.size, if clear then none else item.value, false⟩ },
          true, item.value)
  else if seq_state = read_index then
    some (q, false, none)
  else
    none

/-- `try_pop(result)`: the one-argument form used by `pop_sample`. -/
def try_pop_move (q : Queue) : Option (Queue × Bool × Option Nat) :=
  try_pop_aux q true

/-- `try_pop()`: the zero-argument form used by the eviction in
`push_sample` and by `flush` (the claimed handle is dropped, i.e. left in
the slot until overwritten). -/
def try_pop_drop (q : Queue) : Option (Queue × Bool × Option Nat) :=
  try_pop_aux q false

/-- The retry loop of `push_sample`, with explicit fuel.  Returns
`(q', fences, evictions)` where `fences` counts executions of the one-time
acquire-fence / `done_sync_` store branch and `evictions` counts the forced
`try_pop()` calls.  `none` models non-termination (fuel exhausted or a
diverging `try_pop`). -/
def push_loop : Nat → Queue → Nat → Option (Queue × Nat × Nat)
  | 0, _, _ => none
  | fuel + 1, q, x =>
    match try_push q x with
    | (q', true) => some (q', 0, 0)
    | (_, false) =>
      -- buffer full, drop oldest sample
      let fenced := !q.done_sync
      let q1 := if q.done_sync then q else { q with done_sync := true }
      match try_pop_drop q1 with
      | none => none
      | some (q2, _, _) =>
        (push_loop fuel q2 x).map
          (fun r => (r.1, (if fenced then 1 else 0) + r.2.1, 1 + r.2.2))

/-- `push_sample`: loop `try_push` / evict until the push succeeds, then
notify one waiter (the notification has no sequential state).  The fuel
`q.size + 2` is more than sufficient: it is proved below that two
iterations always suffice from a reachable state. -/
def push_sample (q : Queue) (x : Nat) : Option (Queue × Nat × Nat) :=
  push_loop (q.size + 2) q x

/-- `pop_sample`: non-blocking claim first; on failure with a positive
timeout, re-claim under the mutex, then wait on the condition variable with
the claim as predicate, re-checking on (timed-out) wake-up.  In the
sequential (producer-quiescent) semantics the wait can only expire, so the
model performs the bounded sequence of `try_pop` re-checks.  The third
component of the result records whether the blocking path (mutex + wait)
was entered. -/
def pop_sample (q : Queue) (timeout : ℚ) : Option (Queue × Option Nat × Bool) :=
  match try_pop_move q with
  | none => none
  | some (q1, true, v) => some (q1, v, false)
  | some (q1, false, _) =>
    if 0 < timeout then
      match try_pop_move q1 with
      | none => none
      | some (q2, true, v) => some (q2, v, true)
      | some (q2, false, _) =>
        match try_pop_move q2 with
        | none => none
        | some (q3, true, v) => some (q3, v, true)
        | some (q3, false, _) => some (q3, none, true)
    else
      some (q1, none, false)

/-- Modelled from the spec: the body of `flush` lives in
`consumer_queue.cpp`, which is not among the sources (the header only
declares `uint32_t flush() noexcept`).  Per §4.4 of the spec it repeatedly
force-claims and discards values until empty and returns the count
discarded; each claim is a `try_pop()` with no result argument.  Explicit
fuel, as for `push_sample`. -/
def flush_loop : Nat → Queue → Option (Queue × Nat)
  | 0, _ => none
  | fuel + 1, q =>
    match try_pop_drop q with
    | none => none
    | some (_, false, _) => some (q, 0)
    | some (q1, true, _) =>
      (flush_loop fuel q1).map (fun r => (r.1, r.2 + 1))

/-- `flush` with fuel `size + 1`: a queue never holds more than `size`
claimable samples (proved below), so the loop ends within `size + 1`
rounds from any reachable state. -/
def flush (q : Queue) : Option (Queue × Nat) :=
  flush_loop (q.size + 1) q

/-! ## Operation sequences and reachability -/

/-- One public operation of the queue API. -/
inductive Op where
  | push (x : Nat)
  | pop (t : ℚ)
  | flush
deriving DecidableEq

/-- One step of the public API.  Returns the new state, the list of values
returned by a successful pop (empty or a singleton), and the number of
one-time-fence executions. -/
def step (q : Queue) : Op → Option (Queue × List Nat × Nat)
  | Op.push x => (push_sample q x).map (fun r => (r.1, [], r.2.1))
  | Op.pop t => (pop_sample q t).map (fun r => (r.1, r.2.1.toList, 0))
  | Op.flush => (ConsumerQueue.flush q).map (fun r => (r.1, [], 0))

/-- Run a sequence of public operations; accumulates the chronological list
of popped values and the total fence count. -/
def run (q : Queue) : List Op → Option (Queue × List Nat × Nat)
  | [] => some (q, [], 0)
  | op :: ops =>
    match step q op with
    | none => none
    | some (q1, out1, f1) =>
      (run q1 ops).map (fun r => (r.1, out1 ++ r.2.1, f1 + r.2.2))

/-- A state is reachable for capacity `C` when some sequence of public
operations, starting from a freshly constructed queue, produces it. -/
def Reachable (C : Nat) (q : Queue) : Prop :=
  ∃ ops outs f, run (init C) ops = some (q, outs, f)

/-- `Fresh n ops` holds when the pushes of `ops` carry, in order, the
values `n, n+1, n+2, …` — i.e. every pushed sample is tagged with its push
sequence number.  Used to state the FIFO property. -/
def Fresh : Nat → List Op → Prop
  | _, [] => True
  | n, Op.push x :: ops => x = n ∧ Fresh (n + 1) ops
  | n, Op.pop _ :: ops => Fresh n ops
  | n, Op.flush :: ops => Fresh n ops

/-! ## Specification-level observations -/

/-- The slot reached `j` steps after the read cursor, in ring order.  For
`j = 0, …, size-1` this enumerates every slot of the buffer exactly once
(`p ↦ (read_idx + p) % size` is a bijection of `[0, size)`). -/
def slotAt (q : Queue) (j : Nat) : Item :=
  q.buffer.getD ((q.read_idx + j) % q.size) default

/-- The unread resident samples, oldest first: the values of the slots
whose ghost `unread` flag is set, enumerated in ring order from the read
cursor. -/
def residents (q : Queue) : List Nat :=
  (List.range q.size).filterMap
    (fun j => if (slotAt q j).unread then (slotAt q j).value else none)

/-- The number of slots currently holding an unread value (each slot of the
buffer is counted exactly once; see `slotAt`). -/
def unreadCount (q : Queue) : Nat :=
  ((List.range q.size).filter (fun j => (slotAt q j).unread)).length

/-- The cursor distance `(write_idx − read_idx) mod wrap_at`, computed in
`Nat` as `(write_idx + wrap_at − read_idx) % wrap_at` (both cursors stay
below `wrap_at`, so this is the subtraction in the `mod 2C` index space). -/
def cursorAvail (q : Queue) : Nat :=
  (q.write_idx + q.wrap_at - q.read_idx) % q.wrap_at

/-! ## Arithmetic helpers for the `mod 2C` index space -/

lemma add_wrap_eq_mod (q : Queue) {x delta : Nat} (hx : x < q.wrap_at)
    (hd : delta ≤ q.wrap_at) :
    add_wrap q x delta = (x + delta) % q.wrap_at := by
  simp only [add_wrap]
  split
  · next h => rw [Nat.mod_eq_sub_mod h, Nat.mod_eq_of_lt (by omega)]
  · next h => rw [Nat.mod_eq_of_lt (by omega)]

lemma add_wrap_lt (q : Queue) {x delta : Nat} (hM : 0 < q.wrap_at)
    (hx : x < q.wrap_at) (hd : delta ≤ q.wrap_at) :
    add_wrap q x delta < q.wrap_at := by
  rw [add_wrap_eq_mod q hx hd]; exact Nat.mod_lt _ hM

/-- Cancellation of a common left summand under a common modulus, for
reduced operands. -/
lemma add_mod_cancel_left {M r a b : Nat} (ha : a < M) (hb : b < M)
    (h : (r + a) % M = (r + b) % M) : a = b := by
  have h2 : a ≡ b [MOD M] := Nat.ModEq.add_left_cancel' r h
  calc a = a % M := (Nat.mod_eq_of_lt ha).symm
    _ = b % M := h2
    _ = b := Nat.mod_eq_of_lt hb

lemma size_dvd_wrap (C : Nat) : C ∣ 2 * C := ⟨2, mul_comm 2 C⟩

/-- Collapsing an inner `mod M` under an outer `mod C` when `C ∣ M`. -/
lemma mod_mul_add_mod {C M : Nat} (h : C ∣ M) (a b : Nat) :
    (a % M + b) % C = (a + b) % C := by
  rw [← Nat.mod_add_mod, Nat.mod_mod_of_dvd a h, Nat.mod_add_mod]

lemma succ_mod_ne {M r : Nat} (hM : 2 ≤ M) (hr : r < M) : (r + 1) % M ≠ r := by
  rcases Nat.lt_or_ge (r + 1) M with h | h
  · rw [Nat.mod_eq_of_lt h]; omega
  · have hrM : r + 1 = M := by omega
    rw [hrM, Nat.mod_self]; omega

/-! ## The reachability invariant

`RingInv q l` is the representation invariant of the ring buffer for
capacities `≥ 2` (and for capacity `1` as long as the queue was never
overfilled): `l` is the list of unread resident samples, oldest first.
The slots `(read_idx + k) % size` for `k < l.length` are filled and hold
`l`, marked one past their claiming cursor value; the remaining slots,
`(write_idx + j) % size` for `j < size - l.length`, are free and marked
with the cursor value that will claim them.

`Inv1` describes every reachable state at capacity 1, *including* the
corrupted states produced by pushing into a full capacity-1 queue (where
the slot holds an unread value but the marker claims the queue is empty:
`write_idx = read_idx`).  In every reachable capacity-1 state the single
slot's marker equals the write cursor. -/

def RingInv (q : Queue) (l : List Nat) : Prop :=
  0 < q.size ∧
  q.wrap_at = 2 * q.size ∧
  q.buffer.length = q.size ∧
  q.read_idx < q.wrap_at ∧
  q.write_idx = (q.read_idx + l.length) % q.wrap_at ∧
  l.length ≤ q.size ∧
  (∀ k (hk : k < l.length),
    q.buffer.getD ((q.read_idx + k) % q.size) default =
      ⟨(q.read_idx + k + 1) % q.wrap_at, some (l.get ⟨k, hk⟩), true⟩) ∧
  (∀ j, j < q.size - l.length →
    (q.buffer.getD ((q.write_idx + j) % q.size) default).seq_state =
        (q.write_idx + j) % q.wrap_at ∧
    (q.buffer.getD ((q.write_idx + j) % q.size) default).unread = false)

def Inv1 (q : Queue) (l : List Nat) : Prop :=
  q.size = 1 ∧ q.wrap_at = 2 ∧ q.read_idx < 2 ∧ q.write_idx < 2 ∧
  ∃ it : Item, q.buffer = [it] ∧ it.seq_state = q.write_idx ∧
    ((l = [] ∧ it.unread = false ∧ q.write_idx = q.read_idx) ∨
     (∃ v, l = [v] ∧ it.unread = true ∧ it.value = some v))

/-- The full reachability invariant: the representation invariant at any
capacity `≥ 2`, or the capacity-1 state description. -/
def SInv (q : Queue) (l : List Nat) : Prop :=
  (2 ≤ q.size ∧ RingInv q l) ∨ Inv1 q l

lemma SInv.size_pos {q l} (h : SInv q l) : 0 < q.size := by
  rcases h with ⟨_, h⟩ | h
  · exact h.1
  · rw [h.1]; omega

lemma SInv.len_le {q l} (h : SInv q l) : l.length ≤ q.size := by
  rcases h with ⟨_, h⟩ | h
  · exact h.2.2.2.2.2.1
  · obtain ⟨h1, _, _, _, it, _, _, hcase⟩ := h
    rcases hcase with ⟨hl, _, _⟩ | ⟨v, hl, _, _⟩ <;> simp [hl, h1]

/-! ## List helpers -/

lemma getD_set_self {α : Type} [Inhabited α] {l : List α} {i : Nat} {a d : α}
    (h : i < l.length) : (l.set i a).getD i d = a := by
  rw [List.getD_eq_getElem _ _ (by simpa using h)]
  exact List.getElem_set_self _

lemma getD_set_ne {α : Type} [Inhabited α] {l : List α} {i j : Nat} {a d : α}
    (h : i ≠ j) : (l.set i a).getD j d = l.getD j d := by
  rw [List.getD_eq_getElem?_getD, List.getD_eq_getElem?_getD, List.getElem?_set_ne h]

/-! ## Step lemmas: `try_push` -/

/-- A successful `try_push` into a non-full queue appends the sample. -/
lemma try_push_not_full {q : Queue} {l : List Nat} (h : RingInv q l)
    (hlt : l.length < q.size) (x : Nat) :
    try_push q x =
      ({ q with
          write_idx := (q.write_idx + 1) % q.wrap_at
          buffer := q.buffer.set (q.write_idx % q.size)
            ⟨(q.write_idx + 1) % q.wrap_at, some x, true⟩ }, true) ∧
    RingInv
      { q with
          write_idx := (q.write_idx + 1) % q.wrap_at
          buffer := q.buffer.set (q.write_idx % q.size)
            ⟨(q.write_idx + 1) % q.wrap_at, some x, true⟩ } (l ++ [x]) := by
  obtain ⟨hC, hM, hlen, hr, hw, hle, hfill, hfree⟩ := h
  have hMpos : 0 < q.wrap_at := by omega
  have hM2 : 2 ≤ q.wrap_at := by omega
  have hwlt : q.write_idx < q.wrap_at := by rw [hw]; exact Nat.mod_lt _ hMpos
  have hdvd : q.size ∣ q.wrap_at := by rw [hM]; exact size_dvd_wrap q.size
  -- the slot at the write cursor is the first free slot
  have hfree0 := hfree 0 (by omega)
  simp only [Nat.add_zero] at hfree0
  have hseq0 : (q.buffer.getD (q.write_idx % q.size) default).seq_state = q.write_idx := by
    rw [hfree0.1, Nat.mod_eq_of_lt hwlt]
  have hwrap1 : add_wrap q q.write_idx 1 = (q.write_idx + 1) % q.wrap_at :=
    add_wrap_eq_mod q hwlt (by omega)
  have hpush : try_push q x =
      ({ q with
          write_idx := (q.write_idx + 1) % q.wrap_at
          buffer := q.buffer.set (q.write_idx % q.size)
            ⟨(q.write_idx + 1) % q.wrap_at, some x, true⟩ }, true) := by
    simp only [try_push, hseq0, ne_eq, not_true_eq_false, if_false, ite_false, hwrap1]
  refine ⟨hpush, ?_⟩
  -- now the invariant for the new state
  have hwmodC : q.write_idx % q.size = (q.read_idx + l.length) % q.size := by
    rw [hw, Nat.mod_mod_of_dvd _ hdvd]
  constructor
  · simpa using hC
  constructor
  · simpa using hM
  constructor
  · simpa using hlen
  constructor
  · simpa using hr
  constructor
  · -- write cursor relation
    simp only [List.length_append, List.length_cons, List.length_nil, Nat.zero_add]
    rw [hw, Nat.mod_add_mod, Nat.add_assoc]
  constructor
  · simp only [List.length_append, List.length_cons, List.length_nil]
    omega
  constructor
  · -- filled slots
    intro k hk
    simp only [List.length_append, List.length_cons, List.length_nil] at hk
    rcases Nat.lt_or_ge k l.length with hkl | hkl
    · -- old filled slot, untouched
      have hne : q.write_idx % q.size ≠ (q.read_idx + k) % q.size := by
        rw [hwmodC]
        intro heq
        have := add_mod_cancel_left (M := q.size) (by omega) (by omega) heq
        omega
      simp only [getD_set_ne hne]
      rw [hfill k hkl]
      congr 1
      rw [List.get_eq_getElem, List.get_eq_getElem]
      simp only [List.getElem_append_left hkl]
    · -- the newly filled slot: k = l.length
      have hkeq : k = l.length := by omega
      subst hkeq
      have hpos : (q.read_idx + l.length) % q.size = q.write_idx % q.size := hwmodC.symm
      rw [hpos, getD_set_self (by rw [hlen]; exact Nat.mod_lt _ hC)]
      have hval : (l ++ [x]).get ⟨l.length, by simp⟩ = x := by
        rw [List.get_eq_getElem]
        simp
      rw [hval]
      have : (q.write_idx + 1) % q.wrap_at = (q.read_idx + l.length + 1) % q.wrap_at := by
        rw [hw, Nat.mod_add_mod]
      rw [this]
  · -- free slots
    intro j hj
    simp only [List.length_append, List.length_cons, List.length_nil] at hj
    have hwm : ((q.write_idx + 1) % q.wrap_at + j) % q.size = (q.write_idx + (j + 1)) % q.size := by
      rw [mod_mul_add_mod hdvd]
      congr 1
      omega
    have hwm2 : ((q.write_idx + 1) % q.wrap_at + j) % q.wrap_at
        = (q.write_idx + (j + 1)) % q.wrap_at := by
      rw [Nat.mod_add_mod]
      congr 1
      omega
    have hne : q.write_idx % q.size ≠ (q.write_idx + (j + 1)) % q.size := by
      intro heq
      have heq2 : (q.write_idx + 0) % q.size = (q.write_idx + (j + 1)) % q.size := by
        simpa using heq
      have := add_mod_cancel_left (M := q.size) (by omega) (by omega) heq2
      omega
    have hold := hfree (j + 1) (by omega)
    simp only [hwm, hwm2, getD_set_ne hne]
    exact hold

/-- `try_push` into a full queue of capacity `≥ 2` fails and mutates
nothing: the write cursor's slot is then the oldest filled slot, marked
`(read_idx + 1) % M ≠ write_idx`. -/
lemma try_push_full {q : Queue} {l : List Nat} (h : RingInv q l)
    (h2 : 2 ≤ q.size) (hfull : l.length = q.size) (x : Nat) :
    try_push q x = (q, false) := by
  obtain ⟨hC, hM, hlen, hr, hw, hle, hfill, hfree⟩ := h
  have hMpos : 0 < q.wrap_at := by omega
  have hdvd : q.size ∣ q.wrap_at := by rw [hM]; exact size_dvd_wrap q.size
  -- the write cursor's slot is the filled slot k = 0
  have hpos : q.write_idx % q.size = (q.read_idx + 0) % q.size := by
    rw [hw, Nat.mod_mod_of_dvd _ hdvd, hfull]
    simp [Nat.add_mod_right]
  have hfill0 := hfill 0 (by omega)
  have hseq : (q.buffer.getD (q.write_idx % q.size) default).seq_state
      = (q.read_idx + 1) % q.wrap_at := by
    rw [hpos, hfill0]
  have hne : (q.read_idx + 1) % q.wrap_at ≠ q.write_idx := by
    rw [hw, hfull]
    intro heq
    have := add_mod_cancel_left (M := q.wrap_at) (r := q.read_idx)
      (by omega) (by omega) heq
    omega
  simp only [try_push, hseq]
  rw [if_pos hne]

/-- At capacity 1 the marker of the single slot always equals the write
cursor in a reachable state, so `try_push` always succeeds — even into a
full queue, where it silently overwrites the unread resident sample.  The
new resident list is `[x]` whatever was held before. -/
lemma try_push_inv1 {q : Queue} {l : List Nat} (h : Inv1 q l) (x : Nat) :
    try_push q x =
      ({ q with
          write_idx := (q.write_idx + 1) % 2
          buffer := [⟨(q.write_idx + 1) % 2, some x, true⟩] }, true) ∧
    Inv1
      { q with
          write_idx := (q.write_idx + 1) % 2
          buffer := [⟨(q.write_idx + 1) % 2, some x, true⟩] } [x] := by
  obtain ⟨h1, h2, hr, hwlt, it, hbuf, hseq, hcase⟩ := h
  have hwrap1 : add_wrap q q.write_idx 1 = (q.write_idx + 1) % 2 := by
    rw [add_wrap_eq_mod q (by omega) (by omega), h2]
  have hgd : q.buffer.getD (q.write_idx % q.size) default = it := by
    rw [hbuf, h1, Nat.mod_one]
    rfl
  have hset : q.buffer.set (q.write_idx % q.size) ⟨(q.write_idx + 1) % 2, some x, true⟩
      = [⟨(q.write_idx + 1) % 2, some x, true⟩] := by
    rw [hbuf, h1, Nat.mod_one]
    rfl
  constructor
  · simp only [try_push, hgd, hseq, ne_eq, not_true_eq_false, if_false, ite_false,
      hwrap1, hset]
  · refine ⟨h1, h2, by simpa using hr, by simpa using Nat.mod_lt (q.write_idx + 1) (by omega), ⟨(q.write_idx + 1) % 2, some x, true⟩, rfl, rfl, Or.inr ⟨x, rfl, rfl, rfl⟩⟩

/-! ## Step lemmas: `try_pop` -/

/-- Popping from an empty queue (or from the corrupted capacity-1 state
where the marker claims emptiness) fails without mutation: the marker of
the read cursor's slot equals the read cursor. -/
lemma try_pop_empty {q : Queue} (h : SInv q []) (c : Bool) :
    try_pop_aux q c = some (q, false, none) := by
  rcases h with ⟨h2, hinv⟩ | hinv
  · obtain ⟨hC, hM, hlen, hr, hw, hle, hfill, hfree⟩ := hinv
    have hMpos : 0 < q.wrap_at := by omega
    have hweq : q.write_idx = q.read_idx := by
      rw [hw]
      simp only [List.length_nil, Nat.add_zero]
      exact Nat.mod_eq_of_lt hr
    have hfree0 := hfree 0 (by simpa using hC)
    simp only [Nat.add_zero] at hfree0
    rw [hweq] at hfree0
    have hseq : (q.buffer.getD (q.read_idx % q.size) default).seq_state = q.read_idx := by
      rw [hfree0.1, Nat.mod_eq_of_lt hr]
    have hne : ¬ ((q.buffer.getD (q.read_idx % q.size) default).seq_state
        = add_wrap q q.read_idx 1) := by
      rw [hseq, add_wrap_eq_mod q hr (by omega)]
      intro heq
      exact succ_mod_ne (by omega) hr heq.symm
    simp only [try_pop_aux]
    rw [if_neg hne, if_pos hseq]
  · obtain ⟨h1, h2, hr, hwlt, it, hbuf, hseq, hcase⟩ := hinv
    rcases hcase with ⟨_, hun, hweq⟩ | ⟨v, hv, _⟩
    · have hgd : q.buffer.getD (q.read_idx % q.size) default = it := by
        rw [hbuf, h1, Nat.mod_one]
        rfl
      have hseqr : it.seq_state = q.read_idx := by rw [hseq, hweq]
      have hne : ¬ (it.seq_state = add_wrap q q.read_idx 1) := by
        rw [hseqr, add_wrap_eq_mod q (x := q.read_idx) (by omega) (by omega)]
        intro heq
        exact succ_mod_ne (M := q.wrap_at) (by omega) (by omega) heq.symm
      simp only [try_pop_aux, hgd]
      rw [if_neg hne, if_pos hseqr]
    · simp at hv

/-- Popping from a non-empty queue under the representation invariant
claims the oldest sample: the read cursor's slot is ready
(`marker = (r+1) % M`), the cursor advances, the payload is moved out
(or left behind by the zero-argument form), and the slot is re-marked
`(r + size) % M` for its next generation. -/
lemma try_pop_cons_ring {q : Queue} {v : Nat} {t : List Nat}
    (h : RingInv q (v :: t)) (c : Bool) :
    try_pop_aux q c =
      some ({ q with
          read_idx := (q.read_idx + 1) % q.wrap_at
          buffer := q.buffer.set (q.read_idx % q.size)
            ⟨(q.read_idx + q.size) % q.wrap_at, if c then none else some v, false⟩ },
        true, some v) ∧
    RingInv
      { q with
          read_idx := (q.read_idx + 1) % q.wrap_at
          buffer := q.buffer.set (q.read_idx % q.size)
            ⟨(q.read_idx + q.size) % q.wrap_at, if c then none else some v, false⟩ } t := by
  obtain ⟨hC, hM, hlen, hr, hw, hle, hfill, hfree⟩ := h
  simp only [List.length_cons] at hw hle hfree
  have hMpos : 0 < q.wrap_at := by omega
  have hdvd : q.size ∣ q.wrap_at := by rw [hM]; exact size_dvd_wrap q.size
  have hwrap1 : add_wrap q q.read_idx 1 = (q.read_idx + 1) % q.wrap_at :=
    add_wrap_eq_mod q hr (by omega)
  have hwrapC : add_wrap q q.read_idx q.size = (q.read_idx + q.size) % q.wrap_at :=
    add_wrap_eq_mod q hr (by omega)
  have hfill0 := hfill 0 (by simp)
  simp only [Nat.add_zero] at hfill0
  have hgd : q.buffer.getD (q.read_idx % q.size) default
      = ⟨(q.read_idx + 1) % q.wrap_at, some v, true⟩ := by
    rw [hfill0]
    simp
  have heq : try_pop_aux q c =
      some ({ q with
          read_idx := (q.read_idx + 1) % q.wrap_at
          buffer := q.buffer.set (q.read_idx % q.size)
            ⟨(q.read_idx + q.size) % q.wrap_at, if c then none else some v, false⟩ },
        true, some v) := by
    simp only [try_pop_aux, hgd, hwrap1, hwrapC]
    simp
  refine ⟨heq, ?_⟩
  constructor
  · simpa using hC
  constructor
  · simpa using hM
  constructor
  · simpa using hlen
  constructor
  · exact Nat.mod_lt _ hMpos
  constructor
  · -- write cursor relation
    show q.write_idx = ((q.read_idx + 1) % q.wrap_at + t.length) % q.wrap_at
    rw [hw, Nat.mod_add_mod]
    congr 1
    omega
  constructor
  · show t.length ≤ q.size
    omega
  constructor
  · -- filled slots of the popped state
    intro k hk
    have hpos : ((q.read_idx + 1) % q.wrap_at + k) % q.size
        = (q.read_idx + (k + 1)) % q.size := by
      rw [mod_mul_add_mod hdvd]
      congr 1
      omega
    have hne : q.read_idx % q.size ≠ (q.read_idx + (k + 1)) % q.size := by
      intro hcontra
      have hcontra2 : (q.read_idx + 0) % q.size = (q.read_idx + (k + 1)) % q.size := by
        simpa using hcontra
      have := add_mod_cancel_left (M := q.size) (by omega) (by omega) hcontra2
      omega
    have hold := hfill (k + 1) (by simp only [List.length_cons]; omega)
    simp only [hpos, getD_set_ne hne]
    rw [hold]
    have hseq2 : (q.read_idx + (k + 1) + 1) % q.wrap_at
        = ((q.read_idx + 1) % q.wrap_at + k + 1) % q.wrap_at := by
      rw [Nat.add_assoc ((q.read_idx + 1) % q.wrap_at) k 1, Nat.mod_add_mod]
      congr 1
      omega
    have hget : (v :: t).get ⟨k + 1, by simp; omega⟩ = t.get ⟨k, hk⟩ := by
      rw [List.get_eq_getElem, List.get_eq_getElem]
      exact List.getElem_cons_succ v t k _
    rw [hseq2, hget]
  · -- free slots of the popped state
    intro j hj
    have hj2 : j < q.size - t.length := hj
    show ((q.buffer.set (q.read_idx % q.size) _).getD ((q.write_idx + j) % q.size) default).seq_state
        = (q.write_idx + j) % q.wrap_at ∧
      ((q.buffer.set (q.read_idx % q.size) _).getD ((q.write_idx + j) % q.size) default).unread = false
    rcases Nat.lt_or_ge j (q.size - (t.length + 1)) with hjold | hjnew
    · -- previously free slot, untouched
      have hne : q.read_idx % q.size ≠ (q.write_idx + j) % q.size := by
        rw [hw, mod_mul_add_mod hdvd]
        intro hcontra
        have hcontra2 : (q.read_idx + 0) % q.size
            = (q.read_idx + (t.length + 1 + j)) % q.size := by
          simpa [Nat.add_assoc] using hcontra
        have := add_mod_cancel_left (M := q.size) (by omega) (by omega) hcontra2
        omega
      simp only [getD_set_ne hne]
      exact hfree j hjold
    · -- the newly freed slot: j = size - (t.length + 1)
      have hjeq : j = q.size - (t.length + 1) := by omega
      have hsum : t.length + 1 + j = q.size := by omega
      have hpos : (q.write_idx + j) % q.size = q.read_idx % q.size := by
        rw [hw, mod_mul_add_mod hdvd, Nat.add_assoc, hsum, Nat.add_mod_right]
      have hseqv : (q.write_idx + j) % q.wrap_at = (q.read_idx + q.size) % q.wrap_at := by
        rw [hw, Nat.mod_add_mod, Nat.add_assoc, hsum]
      rw [hpos, hseqv, getD_set_self (by rw [hlen]; exact Nat.mod_lt _ hC)]
      exact ⟨rfl, rfl⟩

/-- Popping at capacity 1 with a resident sample: succeeds exactly when the
cursors differ (the good full state); in the corrupted state
(`write_idx = read_idx`) it fails even though an unread sample is
resident. -/
lemma try_pop_inv1_pop {q : Queue} {v : Nat} (h : Inv1 q [v]) (c : Bool) :
    (q.write_idx ≠ q.read_idx →
      try_pop_aux q c =
        some ({ q with
            read_idx := q.write_idx
            buffer := [⟨q.write_idx, if c then none else some v, false⟩] },
          true, some v) ∧
      Inv1 { q with
            read_idx := q.write_idx
            buffer := [⟨q.write_idx, if c then none else some v, false⟩] } []) ∧
    (q.write_idx = q.read_idx → try_pop_aux q c = some (q, false, none)) := by
  obtain ⟨h1, h2, hr, hwlt, it, hbuf, hseq, hcase⟩ := h
  rcases hcase with ⟨hv, _, _⟩ | ⟨v2, hv, hun, hval⟩
  · simp at hv
  · have hv2 : v = v2 := by
      injection hv with hv1 _
    subst hv2
    have hgd : q.buffer.getD (q.read_idx % q.size) default = it := by
      rw [hbuf, h1, Nat.mod_one]
      rfl
    have hwrap1 : add_wrap q q.read_idx 1 = (q.read_idx + 1) % 2 := by
      rw [add_wrap_eq_mod q (x := q.read_idx) (by omega) (by omega), h2]
    have hwrapS : add_wrap q q.read_idx q.size = (q.read_idx + 1) % 2 := by
      rw [h1, hwrap1]
    constructor
    · intro hne
      have hwnext : q.write_idx = (q.read_idx + 1) % 2 := by omega
      have hcond : it.seq_state = add_wrap q q.read_idx 1 := by
        rw [hseq, hwrap1, hwnext]
      have hset : q.buffer.set (q.read_idx % q.size)
            ⟨add_wrap q q.read_idx q.size, if c then none else it.value, false⟩
          = [⟨q.write_idx, if c then none else some v, false⟩] := by
        rw [hbuf, h1, Nat.mod_one, hwrap1, ← hwnext, hval]
        rfl
      constructor
      · simp only [try_pop_aux, hgd]
        rw [if_pos hcond, hset, hval, hwrap1, ← hwnext]
      · exact ⟨h1, h2, by simpa using hwlt, by simpa using hwlt,
          ⟨q.write_idx, if c then none else some v, false⟩, rfl, rfl,
          Or.inl ⟨rfl, rfl, rfl⟩⟩
    · intro hweq
      have hne : ¬ (it.seq_state = add_wrap q q.read_idx 1) := by
        rw [hseq, hweq, hwrap1]
        intro heq
        omega
      have hpos2 : it.seq_state = q.read_idx := by rw [hseq, hweq]
      simp only [try_pop_aux, hgd]
      rw [if_neg hne, if_pos hpos2]

/-! ## Bookkeeping lemmas -/

/-- `try_pop` never touches the sync flag, the capacity, the wrap threshold
or the write cursor. -/
lemma try_pop_aux_fields {q : Queue} {c : Bool} {q1 : Queue} {b : Bool} {vv : Option Nat}
    (h : try_pop_aux q c = some (q1, b, vv)) :
    q1.done_sync = q.done_sync ∧ q1.size = q.size ∧ q1.wrap_at = q.wrap_at ∧
      q1.write_idx = q.write_idx := by
  simp only [try_pop_aux] at h
  split at h
  · cases h
    exact ⟨rfl, rfl, rfl, rfl⟩
  · split at h
    · cases h
      exact ⟨rfl, rfl, rfl, rfl⟩
    · cases h

/-- A failed `try_pop` returns the state unchanged. -/
lemma try_pop_aux_fail {q : Queue} {c : Bool} {q1 : Queue} {vv : Option Nat}
    (h : try_pop_aux q c = some (q1, false, vv)) : q1 = q ∧ vv = none := by
  simp only [try_pop_aux] at h
  split at h
  · cases h
  · split at h
    · cases h
      exact ⟨rfl, rfl⟩
    · cases h

/-- The invariants ignore the sync flag. -/
lemma ringinv_sync {q : Queue} {l : List Nat} (b : Bool) (h : RingInv q l) :
    RingInv { q with done_sync := b } l := h

lemma inv1_sync {q : Queue} {l : List Nat} (b : Bool) (h : Inv1 q l) :
    Inv1 { q with done_sync := b } l := h

lemma sinv_sync {q : Queue} {l : List Nat} (b : Bool) (h : SInv q l) :
    SInv { q with done_sync := b } l := by
  rcases h with ⟨h2, hr⟩ | h1
  · exact Or.inl ⟨h2, ringinv_sync b hr⟩
  · exact Or.inr (inv1_sync b h1)

/-! ## The freshly constructed queue satisfies the invariant -/

lemma ringinv_init {C : Nat} (hC : 0 < C) : RingInv (init C) [] := by
  refine ⟨by simpa [init] using hC, rfl, by simp [init], by simp [init]; omega,
    by simp [init], by simp [init], ?_, ?_⟩
  · intro k hk
    simp at hk
  · intro j hj
    simp only [List.length_nil, Nat.sub_zero] at hj
    have hj2 : j < C := hj
    have hpos : ((init C).write_idx + j) % (init C).size = j := by
      simp only [init]
      rw [Nat.zero_add, Nat.mod_eq_of_lt hj2]
    have hgd : (init C).buffer.getD j default = ⟨j, none, false⟩ := by
      simp only [init]
      rw [List.getD_eq_getElem _ _ (by simpa using hj2)]
      simp
    rw [hpos, hgd]
    constructor
    · show j = (0 + j) % (2 * C)
      rw [Nat.zero_add, Nat.mod_eq_of_lt (by omega)]
    · rfl

lemma sinv_init {C : Nat} (hC : 0 < C) : SInv (init C) [] := by
  rcases Nat.lt_or_ge C 2 with h1 | h2
  · have hC1 : C = 1 := by omega
    subst hC1
    exact Or.inr ⟨rfl, rfl, by decide, by decide, ⟨0, none, false⟩, by decide, rfl,
      Or.inl ⟨rfl, rfl, rfl⟩⟩
  · exact Or.inl ⟨h2, ringinv_init (by omega)⟩

/-! ## `push_sample` -/

/-- Fuel monotonicity of the push retry loop: once it terminates it
terminates with the same answer for any larger fuel. -/
lemma push_loop_mono {x : Nat} (f1 : Nat) :
    ∀ {f2 : Nat} (q : Queue) {r}, push_loop f1 q x = some r → f1 ≤ f2 →
      push_loop f2 q x = some r := by
  induction f1 with
  | zero =>
    intro f2 q r h _
    simp [push_loop] at h
  | succ f ih =>
    intro f2 q r h hle
    cases f2 with
    | zero => omega
    | succ f2' =>
      simp only [push_loop] at h ⊢
      rcases htp : try_push q x with ⟨q', b⟩
      rw [htp] at h
      cases b with
      | true =>
        exact h
      | false =>
        rcases hpop : try_pop_drop (if q.done_sync then q else { q with done_sync := true })
          with _ | ⟨q2, b2, v2⟩
        · rw [hpop] at h
          simp at h
        · rw [hpop] at h
          simp only [Option.map_eq_some'] at h
          obtain ⟨r0, hr0, hfr⟩ := h
          simp only [Option.map_eq_some']
          exact ⟨r0, ih q2 hr0 (by omega), hfr⟩

/-- The push retry loop terminates within two rounds from any state
satisfying the invariant, performing at most one forced eviction; the new
resident list appends `x`, after dropping the oldest resident when the
queue was full. -/
lemma push_loop_sinv {q : Queue} {l : List Nat} (h : SInv q l) (x : Nat) :
    ∃ q' f e, push_loop 2 q x = some (q', f, e) ∧ e ≤ 1 ∧
      SInv q' (if l.length < q.size then l ++ [x] else l.tail ++ [x]) ∧
      q'.size = q.size := by
  rcases h with ⟨h2, hinv⟩ | hinv
  · rcases Nat.lt_or_ge l.length q.size with hlt | hge
    · obtain ⟨heq, hinv'⟩ := try_push_not_full hinv hlt x
      refine ⟨{ q with
          write_idx := (q.write_idx + 1) % q.wrap_at
          buffer := q.buffer.set (q.write_idx % q.size)
            ⟨(q.write_idx + 1) % q.wrap_at, some x, true⟩ }, 0, 0, ?_, by omega, ?_, rfl⟩
      · simp only [push_loop, heq]
      · rw [if_pos hlt]
        exact Or.inl ⟨h2, hinv'⟩
    · have hle := hinv.2.2.2.2.2.1
      have hfull : l.length = q.size := by omega
      cases l with
      | nil =>
        simp only [List.length_nil] at hfull
        omega
      | cons v t =>
        have hfail := try_push_full hinv h2 hfull x
        have hlt2 : t.length < q.size := by
          simp only [List.length_cons] at hfull
          omega
        have hiflen : ¬ ((v :: t).length < q.size) := by omega
        by_cases hds : q.done_sync = true
        · obtain ⟨hpop, hinvt⟩ := try_pop_cons_ring hinv false
          revert hpop hinvt
          generalize hq2 : ({ q with
              read_idx := (q.read_idx + 1) % q.wrap_at
              buffer := q.buffer.set (q.read_idx % q.size)
                ⟨(q.read_idx + q.size) % q.wrap_at,
                  if false then none else some v, false⟩ } : Queue) = q2
          intro hpop hinvt
          have hsz : q2.size = q.size := by rw [← hq2]
          obtain ⟨heq2, hinv2⟩ := try_push_not_full hinvt (by omega) x
          refine ⟨{ q2 with
              write_idx := (q2.write_idx + 1) % q2.wrap_at
              buffer := q2.buffer.set (q2.write_idx % q2.size)
                ⟨(q2.write_idx + 1) % q2.wrap_at, some x, true⟩ }, 0, 1, ?_, by omega, ?_, hsz⟩
          · simp [push_loop, hfail, hds, try_pop_drop, hpop, heq2]
          · rw [if_neg hiflen, List.tail_cons]
            refine Or.inl ⟨?_, hinv2⟩
            show 2 ≤ q2.size
            omega
        · have hinv1 : RingInv { q with done_sync := true } (v :: t) :=
            ringinv_sync true hinv
          obtain ⟨hpop, hinvt⟩ := try_pop_cons_ring hinv1 false
          revert hpop hinvt
          generalize hq2 : ({ { q with done_sync := true } with
              read_idx := (q.read_idx + 1) % q.wrap_at
              buffer := q.buffer.set (q.read_idx % q.size)
                ⟨(q.read_idx + q.size) % q.wrap_at,
                  if false then none else some v, false⟩ } : Queue) = q2
          intro hpop hinvt
          have hsz : q2.size = q.size := by rw [← hq2]
          obtain ⟨heq2, hinv2⟩ := try_push_not_full hinvt (by omega) x
          refine ⟨{ q2 with
              write_idx := (q2.write_idx + 1) % q2.wrap_at
              buffer := q2.buffer.set (q2.write_idx % q2.size)
                ⟨(q2.write_idx + 1) % q2.wrap_at, some x, true⟩ }, 1, 1, ?_, by omega, ?_, hsz⟩
          · simp [push_loop, hfail, hds, try_pop_drop, hpop, heq2]
          · rw [if_neg hiflen, List.tail_cons]
            refine Or.inl ⟨?_, hinv2⟩
            show 2 ≤ q2.size
            omega
  · obtain ⟨heq, hinv'⟩ := try_push_inv1 hinv x
    have h1 : q.size = 1 := hinv.1
    refine ⟨{ q with
        write_idx := (q.write_idx + 1) % 2
        buffer := [⟨(q.write_idx + 1) % 2, some x, true⟩] }, 0, 0, ?_, by omega, ?_, rfl⟩
    · simp only [push_loop, heq]
    · obtain ⟨_, _, _, _, it, _, _, hcase⟩ := hinv
      rcases hcase with ⟨hl, _, _⟩ | ⟨v, hl, _, _⟩ <;> subst hl
      · rw [if_pos (by simp [h1])]
        exact Or.inr hinv'
      · rw [if_neg (by simp [h1]), List.tail_cons]
        exact Or.inr hinv'

/-- `try_push` never touches the sync flag, the capacity or the wrap
threshold. -/
lemma try_push_fields (q : Queue) (x : Nat) :
    (try_push q x).1.done_sync = q.done_sync ∧ (try_push q x).1.size = q.size ∧
      (try_push q x).1.wrap_at = q.wrap_at := by
  simp only [try_push]
  split
  · exact ⟨rfl, rfl, rfl⟩
  · exact ⟨rfl, rfl, rfl⟩

/-- Fence bookkeeping of the push retry loop: a push never fences when the
flag is already latched, a fence latches the flag, the flag never reverts,
and a single push fences at most once. -/
lemma push_loop_sync (fuel : Nat) :
    ∀ {q : Queue} {x : Nat} {q' : Queue} {f e : Nat},
      push_loop fuel q x = some (q', f, e) →
      (q.done_sync = true → f = 0 ∧ q'.done_sync = true) ∧
      (f ≠ 0 → q'.done_sync = true) ∧
      (f = 0 → q'.done_sync = q.done_sync) ∧ f ≤ 1 := by
  induction fuel with
  | zero =>
    intro q x q' f e h
    simp [push_loop] at h
  | succ fl ih =>
    intro q x q' f e h
    simp only [push_loop] at h
    rcases htp : try_push q x with ⟨qp, b⟩
    rw [htp] at h
    cases b with
    | true =>
      cases h
      have hfields := try_push_fields q x
      rw [htp] at hfields
      refine ⟨fun hd => ⟨rfl, ?_⟩, by simp, fun _ => hfields.1, by omega⟩
      rw [hfields.1]
      exact hd
    | false =>
      cases hD : q.done_sync with
      | true =>
        simp only [hD, Bool.not_true] at h
        rcases hpop : try_pop_drop q with _ | ⟨q2, b2, v2⟩
        · simp only [if_true] at h
          rw [hpop] at h
          simp at h
        · simp only [if_true] at h
          rw [hpop] at h
          simp only [Option.map_eq_some'] at h
          obtain ⟨⟨q3, f3, e3⟩, hr0, hfr⟩ := h
          cases hfr
          have hq2d : q2.done_sync = true := by
            have hfd := (try_pop_aux_fields hpop).1
            rw [hfd, hD]
          have hf3 := (ih hr0).1 hq2d
          refine ⟨fun _ => ⟨by simp [hf3.1], hf3.2⟩, fun _ => hf3.2,
            fun _ => hf3.2, by simp [hf3.1]⟩
      | false =>
        simp only [hD, Bool.not_false] at h
        rcases hpop : try_pop_drop { q with done_sync := true } with _ | ⟨q2, b2, v2⟩
        · rw [if_neg (by simp)] at h
          rw [hpop] at h
          simp at h
        · rw [if_neg (by simp)] at h
          rw [hpop] at h
          simp only [Option.map_eq_some'] at h
          obtain ⟨⟨q3, f3, e3⟩, hr0, hfr⟩ := h
          cases hfr
          have hq2d : q2.done_sync = true :=
            (try_pop_aux_fields hpop).1
          have hf3 := (ih hr0).1 hq2d
          refine ⟨fun hcontra => ?_, fun _ => hf3.2, fun h0 => ?_, by simp [hf3.1]⟩
          · cases hcontra
          · exact absurd h0 (by simp [hf3.1])


/-! ## `try_pop` disposition, `pop_sample`, `flush` -/

/-- From any invariant state, `try_pop` either fails without mutation (the
queue is empty — or is the corrupted capacity-1 full state) or claims the
oldest resident. -/
lemma try_pop_sinv {q : Queue} {l : List Nat} (h : SInv q l) (c : Bool) :
    try_pop_aux q c = some (q, false, none) ∨
    (∃ q' t v, l = v :: t ∧ try_pop_aux q c = some (q', true, some v) ∧
      SInv q' t ∧ q'.size = q.size) := by
  cases l with
  | nil => exact Or.inl (try_pop_empty h c)
  | cons v t =>
    rcases h with ⟨h2, hinv⟩ | hinv
    · obtain ⟨heq, hinvt⟩ := try_pop_cons_ring hinv c
      exact Or.inr ⟨_, t, v, rfl, heq, Or.inl ⟨h2, hinvt⟩, rfl⟩
    · have hts : t = [] := by
        have hl1 : (v :: t).length ≤ q.size := SInv.len_le (Or.inr hinv)
        have h1 : q.size = 1 := hinv.1
        rw [h1, List.length_cons] at hl1
        exact List.eq_nil_of_length_eq_zero (by omega)
      subst hts
      obtain ⟨hsucc, hfailc⟩ := try_pop_inv1_pop hinv c
      by_cases hwr : q.write_idx = q.read_idx
      · exact Or.inl (hfailc hwr)
      · obtain ⟨heq, hinv0⟩ := hsucc hwr
        exact Or.inr ⟨_, [], v, rfl, heq, Or.inr hinv0, rfl⟩

/-- `pop_sample` always returns (in the sequential model: never diverges),
either claiming the oldest resident or returning the explicit empty
handle with the state unchanged. -/
lemma pop_sample_sinv {q : Queue} {l : List Nat} (h : SInv q l) (t0 : ℚ) :
    ∃ q' v b, pop_sample q t0 = some (q', v, b) ∧ q'.size = q.size ∧
      ((v = none ∧ q' = q) ∨ (∃ x tl, l = x :: tl ∧ v = some x ∧ SInv q' tl)) := by
  rcases try_pop_sinv h true with hfail | ⟨q2, tl, x, hl, heq, hs, hsz⟩
  · by_cases ht : 0 < t0
    · refine ⟨q, none, true, ?_, rfl, Or.inl ⟨rfl, rfl⟩⟩
      simp [pop_sample, try_pop_move, hfail, ht]
    · refine ⟨q, none, false, ?_, rfl, Or.inl ⟨rfl, rfl⟩⟩
      simp [pop_sample, try_pop_move, hfail, ht]
  · refine ⟨q2, some x, false, ?_, hsz, Or.inr ⟨x, tl, hl, rfl, hs⟩⟩
    simp [pop_sample, try_pop_move, heq]

/-- With a non-positive timeout, `pop_sample` never enters the blocking
path: it returns exactly the outcome of the single `try_pop`. -/
lemma pop_sample_nonpos {q : Queue} {l : List Nat} (h : SInv q l) {t0 : ℚ}
    (ht : t0 ≤ 0) :
    ∃ q1 ok v, try_pop_move q = some (q1, ok, v) ∧
      pop_sample q t0 = some (q1, v, false) := by
  rcases try_pop_sinv h true with hfail | ⟨q2, tl, x, hl, heq, hs, hsz⟩
  · refine ⟨q, false, none, hfail, ?_⟩
    simp [pop_sample, try_pop_move, hfail, not_lt.mpr ht]
  · refine ⟨q2, true, some x, heq, ?_⟩
    simp [pop_sample, try_pop_move, heq]

/-- The flush loop terminates from any invariant state; it always leaves
some suffix of the residents (everything, in the corrupted capacity-1
state; nothing, at capacity `≥ 2`, where the count returned is exact). -/
lemma flush_loop_sinv :
    ∀ (l : List Nat) (fuel : Nat) (q : Queue), SInv q l → l.length < fuel →
      ∃ q' n, flush_loop fuel q = some (q', n) ∧ q'.size = q.size ∧
        (∃ j, SInv q' (List.drop j l)) ∧
        (2 ≤ q.size → n = l.length ∧ SInv q' []) := by
  intro l
  induction l with
  | nil =>
    intro fuel q h hfl
    cases fuel with
    | zero => omega
    | succ fl =>
      have hpop := try_pop_empty h false
      refine ⟨q, 0, ?_, rfl, ⟨0, h⟩, fun _ => ⟨rfl, h⟩⟩
      simp only [flush_loop, try_pop_drop, hpop]
  | cons v tl ih =>
    intro fuel q h hfl
    cases fuel with
    | zero => omega
    | succ fl =>
      rcases try_pop_sinv h false with hfail | ⟨q2, t2, v2, hl2, heq2, hs2, hsz2⟩
      · refine ⟨q, 0, ?_, rfl, ⟨0, h⟩, fun h2 => ?_⟩
        · simp only [flush_loop, try_pop_drop, hfail]
        · exfalso
          rcases h with ⟨h2q, hr⟩ | h1
          · obtain ⟨hpop2, _⟩ := try_pop_cons_ring hr false
            rw [hfail] at hpop2
            simp at hpop2
          · have h11 := h1.1
            omega
      · have hv2 : v2 = v ∧ t2 = tl := by
          injection hl2 with ha hb
          exact ⟨ha.symm, hb.symm⟩
        obtain ⟨hv2a, hv2b⟩ := hv2
        subst hv2a
        subst hv2b
        simp only [List.length_cons] at hfl
        obtain ⟨q3, n3, hrec, hsz3, ⟨j, hs3⟩, h2rec⟩ := ih fl q2 hs2 (by omega)
        refine ⟨q3, n3 + 1, ?_, by rw [hsz3, hsz2], ⟨j + 1, ?_⟩, fun h2 => ?_⟩
        · simp only [flush_loop, try_pop_drop, heq2, hrec, Option.map_some']
        · rw [List.drop_succ_cons]
          exact hs3
        · have h2q2 : 2 ≤ q2.size := by omega
          obtain ⟨hn3, hs0⟩ := h2rec h2q2
          exact ⟨by simp [hn3], hs0⟩

/-- `flush` (fuel `size + 1`) from any invariant state. -/
lemma flush_sinv {q : Queue} {l : List Nat} (h : SInv q l) :
    ∃ q' n, flush q = some (q', n) ∧ q'.size = q.size ∧
      (∃ j, SInv q' (List.drop j l)) ∧
      (2 ≤ q.size → n = l.length ∧ SInv q' []) := by
  have hlen := h.len_le
  exact flush_loop_sinv l (q.size + 1) q h (by omega)



/-! ## Run-level lemmas -/

/-- `push_sample` (fuel `size + 2`) agrees with the two-round loop from any
invariant state. -/
lemma push_sample_sinv {q : Queue} {l : List Nat} (h : SInv q l) (x : Nat) :
    ∃ q' f e, push_sample q x = some (q', f, e) ∧ push_loop 2 q x = some (q', f, e) ∧
      e ≤ 1 ∧ SInv q' (if l.length < q.size then l ++ [x] else l.tail ++ [x]) ∧
      q'.size = q.size := by
  obtain ⟨q', f, e, heq, he, hs, hsz⟩ := push_loop_sinv h x
  exact ⟨q', f, e, push_loop_mono 2 q heq (by omega), heq, he, hs, hsz⟩

/-- `pop_sample` preserves the sync flag and the capacity. -/
lemma pop_sample_fields {q : Queue} {t0 : ℚ} {q1 : Queue} {v : Option Nat} {b : Bool}
    (h : pop_sample q t0 = some (q1, v, b)) :
    q1.done_sync = q.done_sync ∧ q1.size = q.size := by
  rcases hp1 : try_pop_move q with _ | ⟨qa, ba, va⟩
  · have hnone : pop_sample q t0 = none := by
      simp [pop_sample, hp1]
    rw [hnone] at h
    cases h
  · have hfa := try_pop_aux_fields hp1
    cases ba with
    | true =>
      have heq : pop_sample q t0 = some (qa, va, false) := by
        simp [pop_sample, hp1]
      rw [heq] at h
      simp only [Option.some.injEq, Prod.mk.injEq] at h
      obtain ⟨h1, -, -⟩ := h
      rw [← h1]
      exact ⟨hfa.1, hfa.2.1⟩
    | false =>
      obtain ⟨hqa, hva⟩ := try_pop_aux_fail hp1
      rw [hqa] at hp1
      by_cases ht : 0 < t0
      · have heq : pop_sample q t0 = some (q, none, true) := by
          simp [pop_sample, hp1, ht]
        rw [heq] at h
        simp only [Option.some.injEq, Prod.mk.injEq] at h
        obtain ⟨h1, -, -⟩ := h
        rw [← h1]
        exact ⟨rfl, rfl⟩
      · have heq : pop_sample q t0 = some (q, none, false) := by
          simp [pop_sample, hp1, ht]
        rw [heq] at h
        simp only [Option.some.injEq, Prod.mk.injEq] at h
        obtain ⟨h1, -, -⟩ := h
        rw [← h1]
        exact ⟨rfl, rfl⟩

/-- The flush loop preserves the sync flag and the capacity. -/
lemma flush_loop_fields (fuel : Nat) :
    ∀ {q q1 : Queue} {n : Nat}, flush_loop fuel q = some (q1, n) →
      q1.done_sync = q.done_sync ∧ q1.size = q.size := by
  induction fuel with
  | zero =>
    intro q q1 n h
    simp [flush_loop] at h
  | succ fl ih =>
    intro q q1 n h
    simp only [flush_loop] at h
    rcases hp : try_pop_drop q with _ | ⟨qa, ba, va⟩
    · rw [hp] at h
      simp at h
    · rw [hp] at h
      have hfa := try_pop_aux_fields hp
      cases ba with
      | false =>
        simp only [Option.some.injEq, Prod.mk.injEq] at h
        obtain ⟨h1, _⟩ := h
        rw [← h1]
        exact ⟨rfl, rfl⟩
      | true =>
        simp only [Option.map_eq_some'] at h
        obtain ⟨⟨q3, n3⟩, hr, hmk⟩ := h
        have hih := ih hr
        simp only [Prod.mk.injEq] at hmk
        obtain ⟨h1, _⟩ := hmk
        rw [← h1]
        exact ⟨hih.1.trans hfa.1, hih.2.trans hfa.2.1⟩

/-- Fence bookkeeping of one public operation: no fence when the flag is
latched, a fence latches the flag, the flag never reverts, at most one
fence per operation. -/
lemma step_sync {q : Queue} {op : Op} {q1 : Queue} {outs : List Nat} {f : Nat}
    (h : step q op = some (q1, outs, f)) :
    (q.done_sync = true → f = 0 ∧ q1.done_sync = true) ∧
    (f ≠ 0 → q1.done_sync = true) ∧
    (f = 0 → q1.done_sync = q.done_sync) ∧ f ≤ 1 := by
  cases op with
  | push x =>
    simp only [step, push_sample, Option.map_eq_some'] at h
    obtain ⟨⟨q2, f2, e2⟩, hr, hmk⟩ := h
    simp only [Prod.mk.injEq] at hmk
    obtain ⟨hq, -, hf⟩ := hmk
    subst hq
    subst hf
    exact push_loop_sync _ hr
  | pop t =>
    simp only [step, Option.map_eq_some'] at h
    obtain ⟨⟨q2, v2, b2⟩, hr, hmk⟩ := h
    simp only [Prod.mk.injEq] at hmk
    obtain ⟨hq, -, hf⟩ := hmk
    subst hq
    subst hf
    have hfd := (pop_sample_fields hr).1
    exact ⟨fun hd => ⟨rfl, by rw [hfd, hd]⟩, by simp, fun _ => hfd, by omega⟩
  | flush =>
    simp only [step, ConsumerQueue.flush, Option.map_eq_some'] at h
    obtain ⟨⟨q2, n2⟩, hr, hmk⟩ := h
    simp only [Prod.mk.injEq] at hmk
    obtain ⟨hq, -, hf⟩ := hmk
    subst hq
    subst hf
    have hfd := (flush_loop_fields _ hr).1
    exact ⟨fun hd => ⟨rfl, by rw [hfd, hd]⟩, by simp, fun _ => hfd, by omega⟩

/-- Fence bookkeeping over a whole run: at most one fence is executed in
the lifetime of a queue whose flag starts unlatched, none if it starts
latched, and the flag is monotone. -/
lemma run_sync (ops : List Op) :
    ∀ {q q' : Queue} {outs : List Nat} {F : Nat},
      run q ops = some (q', outs, F) →
      F ≤ (if q.done_sync = true then 0 else 1) ∧
      (q.done_sync = true → q'.done_sync = true) := by
  induction ops with
  | nil =>
    intro q q' outs F h
    simp only [run, Option.some.injEq, Prod.mk.injEq] at h
    obtain ⟨h1, -, hF⟩ := h
    subst h1
    constructor
    · split <;> omega
    · exact fun hd => hd
  | cons op ops ih =>
    intro q q' outs F h
    simp only [run] at h
    rcases hst : step q op with _ | ⟨q1, out1, f1⟩
    · rw [hst] at h
      simp at h
    · rw [hst] at h
      simp only [Option.map_eq_some'] at h
      obtain ⟨⟨q2, out2, F2⟩, hr, hmk⟩ := h
      simp only [Prod.mk.injEq] at hmk
      obtain ⟨hq, -, hF⟩ := hmk
      subst hq
      subst hF
      obtain ⟨hs1, hs2, hs3, hs4⟩ := step_sync hst
      obtain ⟨hrF, hrMono⟩ := ih hr
      by_cases hd : q.done_sync = true
      · obtain ⟨hf10, hq1d⟩ := hs1 hd
        rw [if_pos hd]
        rw [if_pos hq1d] at hrF
        exact ⟨by omega, fun _ => hrMono hq1d⟩
      · rw [if_neg hd]
        constructor
        · by_cases hf1 : f1 = 0
          · have := hs3 hf1
            rw [if_neg (by rw [this]; exact hd)] at hrF
            omega
          · have hq1d := hs2 hf1
            rw [if_pos hq1d] at hrF
            omega
        · intro hcontra
          exact absurd hcontra hd



lemma drop_range' : ∀ (j s k : Nat),
    List.drop j (List.range' s k) = List.range' (s + j) (k - j) := by
  intro j
  induction j with
  | zero =>
    intro s k
    simp
  | succ j ih =>
    intro s k
    cases k with
    | zero =>
      simp [List.range'_zero]
    | succ kp =>
      rw [List.range'_succ, List.drop_succ_cons, ih]
      have h1 : s + 1 + j = s + (j + 1) := by omega
      have h2 : kp - j = kp + 1 - (j + 1) := by omega
      rw [h1, h2]

/-- Any run of public operations from an invariant state terminates with a
well-formed result: the general reachability invariant. -/
lemma run_sinv (ops : List Op) :
    ∀ {q : Queue} {l : List Nat}, SInv q l →
      ∃ q' outs F, run q ops = some (q', outs, F) ∧ q'.size = q.size ∧
        ∃ l2, SInv q' l2 := by
  induction ops with
  | nil =>
    intro q l h
    exact ⟨q, [], 0, rfl, rfl, l, h⟩
  | cons op ops ih =>
    intro q l h
    cases op with
    | push x =>
      obtain ⟨q1, f, e, hps, -, -, hs1, hsz1⟩ := push_sample_sinv h x
      obtain ⟨q', outs, F, hrun, hsz, hl2⟩ := ih hs1
      refine ⟨q', outs, f + F, ?_, by rw [hsz, hsz1], hl2⟩
      simp [run, step, hps, hrun]
    | pop t =>
      obtain ⟨q1, v, b, hps, hsz1, hcases⟩ := pop_sample_sinv h t
      have hs1 : ∃ l1, SInv q1 l1 := by
        rcases hcases with ⟨-, hq⟩ | ⟨x, tl, -, -, hs⟩
        · exact ⟨l, hq ▸ h⟩
        · exact ⟨tl, hs⟩
      obtain ⟨l1, hs1⟩ := hs1
      obtain ⟨q', outs, F, hrun, hsz, hl2⟩ := ih hs1
      refine ⟨q', v.toList ++ outs, F, ?_, by rw [hsz, hsz1], hl2⟩
      simp [run, step, hps, hrun]
    | flush =>
      obtain ⟨q1, cnt, hfl, hsz1, ⟨j, hs1⟩, -⟩ := flush_sinv h
      obtain ⟨q', outs, F, hrun, hsz, hl2⟩ := ih hs1
      refine ⟨q', outs, F, ?_, by rw [hsz, hsz1], hl2⟩
      simp [run, step, hfl, hrun]



/-- The FIFO master lemma: when the `i`-th push carries value `i`, the
resident list is always the contiguous range of the not-yet-removed
sequence numbers, and the successful pops return a strictly increasing
sequence — survivors are observed in push order. -/
lemma run_fresh (ops : List Op) :
    ∀ {q : Queue} (lo n : Nat), lo ≤ n → n - lo ≤ q.size →
      SInv q (List.range' lo (n - lo)) → Fresh n ops →
      ∃ q' outs F, run q ops = some (q', outs, F) ∧
        List.Chain' (· < ·) outs ∧ (∀ y ∈ outs, lo ≤ y) := by
  induction ops with
  | nil =>
    intro q lo n hlon hsize h hf
    refine ⟨q, [], 0, rfl, List.chain'_nil, ?_⟩
    intro y hy
    simp at hy
  | cons op ops ih =>
    intro q lo n hlon hsize h hf
    cases op with
    | push x =>
      obtain ⟨hx, hf2⟩ := hf
      have hx2 : n = x := hx.symm
      subst hx2
      obtain ⟨q1, f, e, hps, -, -, hs1, hsz1⟩ := push_sample_sinv h n
      have hrangelen : (List.range' lo (n - lo)).length = n - lo := by
        rw [List.length_range']
      by_cases hfull : (List.range' lo (n - lo)).length < q.size
      · rw [if_pos hfull] at hs1
        have hr : List.range' lo (n - lo) ++ [n] = List.range' lo (n + 1 - lo) := by
          have hsub : n + 1 - lo = (n - lo) + 1 := by omega
          rw [hsub, List.range'_concat]
          have hval : lo + 1 * (n - lo) = n := by omega
          rw [hval]
        rw [hr] at hs1
        obtain ⟨q', outs, F, hrun, hchain, hlb⟩ :=
          ih lo (n + 1) (by omega) (by rw [hsz1]; omega) hs1 hf2
        refine ⟨q', outs, f + F, ?_, hchain, hlb⟩
        simp [run, step, hps, hrun]
      · rw [if_neg hfull] at hs1
        have hpos : 0 < q.size := SInv.size_pos h
        have hk1 : 1 ≤ n - lo := by omega
        have hk : n - lo = (n - lo - 1) + 1 := by omega
        have hr : (List.range' lo (n - lo)).tail ++ [n]
            = List.range' (lo + 1) (n + 1 - (lo + 1)) := by
          rw [hk, List.range'_succ, List.tail_cons]
          have hsub : n + 1 - (lo + 1) = (n - lo - 1) + 1 := by omega
          rw [hsub, List.range'_concat]
          have hval : lo + 1 + 1 * (n - lo - 1) = n := by omega
          rw [hval]
        rw [hr] at hs1
        obtain ⟨q', outs, F, hrun, hchain, hlb⟩ :=
          ih (lo + 1) (n + 1) (by omega) (by rw [hsz1]; omega) hs1 hf2
        refine ⟨q', outs, f + F, ?_, hchain, ?_⟩
        · simp [run, step, hps, hrun]
        · intro y hy
          have := hlb y hy
          omega
    | pop t =>
      have hf2 : Fresh n ops := hf
      obtain ⟨q1, v, b, hps, hsz1, hcases⟩ := pop_sample_sinv h t
      rcases hcases with ⟨hv, hq⟩ | ⟨x, tl, hl, hv, hs⟩
      · subst hv
        subst hq
        obtain ⟨q', outs, F, hrun, hchain, hlb⟩ := ih lo n hlon hsize h hf2
        refine ⟨q', outs, F, ?_, hchain, hlb⟩
        simp [run, step, hps, hrun]
      · subst hv
        have hk1 : n - lo ≠ 0 := by
          intro h0
          rw [h0, List.range'_zero] at hl
          cases hl
        have hk : n - lo = (n - lo - 1) + 1 := by omega
        rw [hk, List.range'_succ] at hl
        injection hl with hx htl
        subst hx
        subst htl
        have hs2 : SInv q1 (List.range' (lo + 1) (n - (lo + 1))) := by
          have : n - (lo + 1) = n - lo - 1 := by omega
          rw [this]
          exact hs
        obtain ⟨q', outs, F, hrun, hchain, hlb⟩ :=
          ih (lo + 1) n (by omega) (by rw [hsz1]; omega) hs2 hf2
        refine ⟨q', lo :: outs, F, ?_, ?_, ?_⟩
        · simp [run, step, hps, hrun]
        · rw [List.chain'_cons']
          refine ⟨?_, hchain⟩
          intro y hy
          have := hlb y (List.mem_of_mem_head? hy)
          omega
        · intro y hy
          rcases List.mem_cons.mp hy with hy1 | hy2
          · omega
          · have := hlb y hy2
            omega
    | flush =>
      have hf2 : Fresh n ops := hf
      obtain ⟨q1, cnt, hfl, hsz1, ⟨j, hs1⟩, -⟩ := flush_sinv h
      rcases le_or_lt (n - lo) j with hj | hj
      · have hnil : List.drop j (List.range' lo (n - lo)) = [] :=
          List.drop_eq_nil_of_le (by rw [List.length_range']; omega)
        rw [hnil] at hs1
        have hs2 : SInv q1 (List.range' n (n - n)) := by
          rw [Nat.sub_self, List.range'_zero]
          exact hs1
        obtain ⟨q', outs, F, hrun, hchain, hlb⟩ :=
          ih n n (by omega) (by omega) hs2 hf2
        refine ⟨q', outs, F, ?_, hchain, ?_⟩
        · simp [run, step, hfl, hrun]
        · intro y hy
          have := hlb y hy
          omega
      · have hs2 : SInv q1 (List.range' (lo + j) (n - (lo + j))) := by
          have hd := drop_range' j lo (n - lo)
          have : n - (lo + j) = n - lo - j := by omega
          rw [this, ← hd]
          exact hs1
        obtain ⟨q', outs, F, hrun, hchain, hlb⟩ :=
          ih (lo + j) n (by omega) (by rw [hsz1]; omega) hs2 hf2
        refine ⟨q', outs, F, ?_, hchain, ?_⟩
        · simp [run, step, hfl, hrun]
        · intro y hy
          have := hlb y hy
          omega



/-! ## Observation lemmas: `residents`, `unreadCount`, `cursorAvail` -/

lemma slotAt_filled {q : Queue} {l : List Nat} (h : RingInv q l) {j : Nat}
    (hj : j < l.length) :
    slotAt q j = ⟨(q.read_idx + j + 1) % q.wrap_at, some (l.get ⟨j, hj⟩), true⟩ :=
  h.2.2.2.2.2.2.1 j hj

lemma slotAt_free {q : Queue} {l : List Nat} (h : RingInv q l) {j : Nat}
    (hj1 : l.length ≤ j) (hj2 : j < q.size) :
    (slotAt q j).unread = false ∧
    (slotAt q j).seq_state = (q.read_idx + j) % q.wrap_at := by
  obtain ⟨hC, hM, hlen, hr, hw, hle, hfill, hfree⟩ := h
  have hdvd : q.size ∣ q.wrap_at := by rw [hM]; exact size_dvd_wrap q.size
  have hpos : (q.read_idx + j) % q.size = (q.write_idx + (j - l.length)) % q.size := by
    rw [hw, mod_mul_add_mod hdvd]
    congr 1
    omega
  have hseq : (q.write_idx + (j - l.length)) % q.wrap_at
      = (q.read_idx + j) % q.wrap_at := by
    rw [hw, Nat.mod_add_mod]
    congr 1
    omega
  have hfj := hfree (j - l.length) (by omega)
  unfold slotAt
  rw [hpos]
  exact ⟨hfj.2, by rw [hfj.1, hseq]⟩

lemma residents_ring {q : Queue} {l : List Nat} (h : RingInv q l) :
    residents q = l := by
  have hle := h.2.2.2.2.2.1
  unfold residents
  rw [show q.size = l.length + (q.size - l.length) from by omega, List.range_add,
    List.filterMap_append]
  have h1 : List.filterMap
      (fun j => if (slotAt q j).unread then (slotAt q j).value else none)
      (List.range l.length) = l := by
    rw [List.filterMap_congr (g := fun j => some (l.getD j 0)) ?_]
    · rw [show (fun j => some (l.getD j 0)) = some ∘ (fun j => l.getD j 0) from rfl,
        List.filterMap_eq_map]
      refine List.ext_getElem (by simp) ?_
      intro i h1 h2
      simp only [List.getElem_map, List.getElem_range]
      rw [List.getD_eq_getElem _ _ (by simpa using h1)]
    · intro j hj
      have hjl : j < l.length := by simpa using hj
      rw [slotAt_filled h hjl]
      simp only [if_true]
      rw [List.get_eq_getElem, List.getD_eq_getElem _ _ hjl]
  have h2 : List.filterMap
      (fun j => if (slotAt q j).unread then (slotAt q j).value else none)
      (List.map (fun i => l.length + i) (List.range (q.size - l.length))) = [] := by
    rw [List.filterMap_map]
    rw [List.filterMap_eq_nil_iff]
    intro i hi
    have hi2 : i < q.size - l.length := by simpa using hi
    have hfr := slotAt_free h (j := l.length + i) (by omega) (by omega)
    simp only [Function.comp]
    rw [hfr.1]
    simp
  rw [h1, h2, List.append_nil]

lemma unreadCount_ring {q : Queue} {l : List Nat} (h : RingInv q l) :
    unreadCount q = l.length := by
  have hle := h.2.2.2.2.2.1
  unfold unreadCount
  rw [show q.size = l.length + (q.size - l.length) from by omega, List.range_add,
    List.filter_append]
  have h1 : List.filter (fun j => (slotAt q j).unread) (List.range l.length)
      = List.range l.length := by
    rw [List.filter_eq_self]
    intro j hj
    have hjl : j < l.length := by simpa using hj
    rw [slotAt_filled h hjl]
  have h2 : List.filter (fun j => (slotAt q j).unread)
      (List.map (fun i => l.length + i) (List.range (q.size - l.length))) = [] := by
    rw [List.filter_eq_nil_iff]
    intro j hj
    simp only [List.mem_map, List.mem_range] at hj
    obtain ⟨i, hi, hji⟩ := hj
    subst hji
    have hfr := slotAt_free h (j := l.length + i) (by omega) (by omega)
    simp [hfr.1]
  rw [h1, h2, List.append_nil, List.length_range]

lemma cursorAvail_ring {q : Queue} {l : List Nat} (h : RingInv q l) :
    cursorAvail q = l.length := by
  obtain ⟨hC, hM, hlen, hr, hw, hle, -, -⟩ := h
  have hMpos : 0 < q.wrap_at := by omega
  have hdM : l.length < q.wrap_at := by omega
  unfold cursorAvail
  rw [hw]
  set a := (q.read_idx + l.length) % q.wrap_at with ha
  have haM : a < q.wrap_at := Nat.mod_lt _ hMpos
  have h1 : (a + q.wrap_at - q.read_idx) + q.read_idx = a + q.wrap_at := by omega
  have h2 : ((a + q.wrap_at - q.read_idx) + q.read_idx) % q.wrap_at
      = (l.length + q.read_idx) % q.wrap_at := by
    rw [h1, Nat.add_mod_right, ha, Nat.mod_mod_of_dvd _ dvd_rfl,
      Nat.add_comm l.length q.read_idx]
  have h3 : (a + q.wrap_at - q.read_idx) % q.wrap_at = l.length % q.wrap_at :=
    Nat.ModEq.add_right_cancel' q.read_idx h2
  rw [h3, Nat.mod_eq_of_lt hdM]

lemma residents_inv1 {q : Queue} {l : List Nat} (h : Inv1 q l) :
    residents q = l := by
  obtain ⟨h1, h2, hr, hwlt, it, hbuf, hseq, hcase⟩ := h
  have hslot : slotAt q 0 = it := by
    unfold slotAt
    rw [h1, Nat.mod_one, hbuf]
    rfl
  unfold residents
  rw [h1]
  rcases hcase with ⟨hl, hun, -⟩ | ⟨v, hl, hun, hval⟩ <;> subst hl
  · simp [List.range_succ, hslot, hun]
  · simp [List.range_succ, hslot, hun, hval]

lemma unreadCount_inv1 {q : Queue} {l : List Nat} (h : Inv1 q l) :
    unreadCount q = l.length := by
  obtain ⟨h1, h2, hr, hwlt, it, hbuf, hseq, hcase⟩ := h
  have hslot : slotAt q 0 = it := by
    unfold slotAt
    rw [h1, Nat.mod_one, hbuf]
    rfl
  unfold unreadCount
  rw [h1]
  rcases hcase with ⟨hl, hun, -⟩ | ⟨v, hl, hun, hval⟩ <;> subst hl
  · simp [List.range_succ, hslot, hun]
  · simp [List.range_succ, hslot, hun]

lemma residents_sinv {q : Queue} {l : List Nat} (h : SInv q l) : residents q = l := by
  rcases h with ⟨-, h⟩ | h
  · exact residents_ring h
  · exact residents_inv1 h

lemma unreadCount_sinv {q : Queue} {l : List Nat} (h : SInv q l) :
    unreadCount q = l.length := by
  rcases h with ⟨-, h⟩ | h
  · exact unreadCount_ring h
  · exact unreadCount_inv1 h

/-- Every slot position is visited by the ring enumeration. -/
lemma slot_cover {q : Queue} (hC : 0 < q.size) {p : Nat} (hp : p < q.size) :
    ∃ j, j < q.size ∧ (q.read_idx + j) % q.size = p := by
  refine ⟨(p + q.size - q.read_idx % q.size) % q.size, Nat.mod_lt _ hC, ?_⟩
  have hs : q.read_idx % q.size < q.size := Nat.mod_lt _ hC
  have hdm := Nat.div_add_mod q.read_idx q.size
  rw [Nat.add_mod_mod]
  have hrw : q.read_idx + (p + q.size - q.read_idx % q.size)
      = p + q.size * (q.read_idx / q.size) + q.size := by omega
  rw [hrw, Nat.add_mod_right, Nat.add_mul_mod_self_left, Nat.mod_eq_of_lt hp]

/-- All readiness markers stay in the `mod 2C` index space, together with
both cursors. -/
lemma bounds_sinv {q : Queue} {l : List Nat} (h : SInv q l) :
    q.read_idx < q.wrap_at ∧ q.write_idx < q.wrap_at ∧
    ∀ p, p < q.size → (q.buffer.getD p default).seq_state < q.wrap_at := by
  rcases h with ⟨h2, hinv⟩ | hinv
  · obtain ⟨hC, hM, hlen, hr, hw, hle, hfill, hfree⟩ := hinv
    have hMpos : 0 < q.wrap_at := by omega
    refine ⟨hr, by rw [hw]; exact Nat.mod_lt _ hMpos, ?_⟩
    intro p hp
    obtain ⟨j, hj, hpj⟩ := slot_cover hC hp
    have hgd : q.buffer.getD p default = slotAt q j := by
      unfold slotAt
      rw [hpj]
    rw [hgd]
    rcases Nat.lt_or_ge j l.length with hjl | hjl
    · rw [slotAt_filled ⟨hC, hM, hlen, hr, hw, hle, hfill, hfree⟩ hjl]
      exact Nat.mod_lt _ hMpos
    · rw [(slotAt_free ⟨hC, hM, hlen, hr, hw, hle, hfill, hfree⟩ hjl hj).2]
      exact Nat.mod_lt _ hMpos
  · obtain ⟨h1, h2, hr, hwlt, it, hbuf, hseq, -⟩ := hinv
    refine ⟨by omega, by omega, ?_⟩
    intro p hp
    rw [h1] at hp
    have hp0 : p = 0 := by omega
    subst hp0
    rw [hbuf]
    show it.seq_state < q.wrap_at
    rw [hseq, h2]
    omega

/-- Reachability yields the invariant. -/
lemma reachable_sinv {C : Nat} {q : Queue} (hC : 0 < C) (h : Reachable C q) :
    ∃ l, SInv q l ∧ q.size = C := by
  obtain ⟨ops, outs, F, hrun⟩ := h
  obtain ⟨q2, outs2, F2, hrun2, hsz, l2, hs⟩ := run_sinv ops (sinv_init hC)
  rw [hrun] at hrun2
  simp only [Option.some.injEq, Prod.mk.injEq] at hrun2
  obtain ⟨hq, -, -⟩ := hrun2
  subst hq
  refine ⟨l2, hs, ?_⟩
  simpa [init] using hsz



lemma sinv_wrap {q : Queue} {l : List Nat} (h : SInv q l) : q.wrap_at = 2 * q.size := by
  rcases h with ⟨-, hr⟩ | h1
  · exact hr.2.1
  · rw [h1.2.1, h1.1]

/-! # The claims -/

/-- C1 (counterexample): the claimed equality "number of slots holding an
unread value = (write − read) mod M" fails at capacity 1.  After pushing
two samples into a freshly constructed capacity-1 queue, the single slot
holds the unread second sample, but the cursors coincide
(`(w − r) mod M = 0`): the overflow push silently desynchronised the
marker, and the resident sample is unreachable. -/
theorem capacity_bound_counterexample :
    ¬ (∀ (C : Nat) (q : Queue), 0 < C → Reachable C q →
        unreadCount q = cursorAvail q ∧ cursorAvail q ≤ C) := by
  intro h
  have hreach : Reachable 1 ⟨1, 2, [⟨0, some 1, true⟩], false, 0, 0⟩ :=
    ⟨[Op.push 0, Op.push 1], [], 0, by decide⟩
  have hc := h 1 ⟨1, 2, [⟨0, some 1, true⟩], false, 0, 0⟩ (by decide) hreach
  exact absurd hc (by decide)

/-- C1 (amended: capacity ≥ 2): for every queue constructed with capacity
`C ≥ 2` and every reachable state under push_sample/pop_sample/flush, the
number of slots holding an unread value equals
`(write_idx − read_idx) mod M` (computed as
`(write_idx + M − read_idx) % M`), and this quantity is always in
`[0, C]`. -/
theorem capacity_bound (C : Nat) (q : Queue) (hC : 2 ≤ C) (h : Reachable C q) :
    unreadCount q = cursorAvail q ∧ cursorAvail q ≤ C := by
  obtain ⟨l, hs, hsz⟩ := reachable_sinv (by omega) h
  rcases hs with ⟨h2, hr⟩ | h1
  · rw [unreadCount_ring hr, cursorAvail_ring hr]
    have hle := hr.2.2.2.2.2.1
    exact ⟨rfl, by omega⟩
  · have h11 := h1.1
    omega

theorem capacity_bound_witness :
    unreadCount ⟨2, 4, [⟨1, some 0, true⟩, ⟨1, none, false⟩], false, 1, 0⟩
      = cursorAvail ⟨2, 4, [⟨1, some 0, true⟩, ⟨1, none, false⟩], false, 1, 0⟩ ∧
    cursorAvail ⟨2, 4, [⟨1, some 0, true⟩, ⟨1, none, false⟩], false, 1, 0⟩ ≤ 2 :=
  capacity_bound 2 _ (by decide) ⟨[Op.push 0], [], 0, by decide⟩

/-- C2: pushing into a reachable queue whose `C` slots all hold unread
values discards exactly the oldest resident (the one at the read cursor)
and stores the new sample: the residents go from `l` to `l.tail ++ [x]`.
Concretely at capacity 3, pushing 0,1,2,3 and then popping four times
returns exactly 1, 2, 3 (0 was evicted; the fourth pop, with timeout 1/10,
finds the queue empty). -/
theorem drop_oldest_push :
    (∀ (C : Nat) (q : Queue) (x : Nat), 0 < C → Reachable C q →
      (residents q).length = q.size →
      ∃ q' f e, push_sample q x = some (q', f, e) ∧
        residents q' = (residents q).tail ++ [x]) ∧
    (run (init 3) [Op.push 0, Op.push 1, Op.push 2, Op.push 3,
        Op.pop 1, Op.pop 1, Op.pop 1, Op.pop (mkRat 1 10)]).map
      (fun r => (r.2.1, residents r.1)) = some (([1, 2, 3] : List Nat), ([] : List Nat)) := by
  constructor
  · intro C q x hC hreach hfull
    obtain ⟨l, hs, hsz⟩ := reachable_sinv hC hreach
    rw [residents_sinv hs] at hfull ⊢
    obtain ⟨q', f, e, hps, -, -, hs2, -⟩ := push_sample_sinv hs x
    rw [if_neg (by omega)] at hs2
    exact ⟨q', f, e, hps, residents_sinv hs2⟩
  · decide

theorem drop_oldest_push_witness :
    ∃ q' f e, push_sample ⟨2, 4, [⟨1, some 0, true⟩, ⟨2, some 1, true⟩], false, 2, 0⟩ 5
        = some (q', f, e) ∧
      residents q'
        = (residents ⟨2, 4, [⟨1, some 0, true⟩, ⟨2, some 1, true⟩], false, 2, 0⟩).tail
            ++ [5] :=
  drop_oldest_push.1 2 _ 5 (by decide) ⟨[Op.push 0, Op.push 1], [], 0, by decide⟩
    (by decide)

/-- C3: from every reachable state, the retry loop of `push_sample`
terminates within two rounds — at most one forced eviction (`e ≤ 1`) —
and the fuelled `push_sample` returns exactly the two-round result. -/
theorem push_terminates (C : Nat) (q : Queue) (x : Nat) (hC : 0 < C)
    (h : Reachable C q) :
    ∃ q' f e, push_loop 2 q x = some (q', f, e) ∧ push_sample q x = some (q', f, e) ∧
      e ≤ 1 := by
  obtain ⟨l, hs, -⟩ := reachable_sinv hC h
  obtain ⟨q', f, e, hps, hpl, he, -, -⟩ := push_sample_sinv hs x
  exact ⟨q', f, e, hpl, hps, he⟩

theorem push_terminates_witness :
    ∃ q' f e, push_loop 2 ⟨2, 4, [⟨1, some 0, true⟩, ⟨2, some 1, true⟩], false, 2, 0⟩ 5
        = some (q', f, e) ∧
      push_sample ⟨2, 4, [⟨1, some 0, true⟩, ⟨2, some 1, true⟩], false, 2, 0⟩ 5
        = some (q', f, e) ∧ e ≤ 1 :=
  push_terminates 2 _ 5 (by decide) ⟨[Op.push 0, Op.push 1], [], 0, by decide⟩

/-- C4: `try_pop` protocol, at every reachable state.  Writing `r` for the
read cursor, `s` for the marker of slot `r mod C` and
`next = (r+1) mod M`: the call terminates (`isSome`); it returns failure
(no mutation, empty payload) exactly when `s = r`; and when `s = next` it
claims the slot — advances the cursor to `next`, moves the payload out and
stores `(r + C) mod M` into the marker. -/
theorem try_pop_protocol (C : Nat) (q : Queue) (hC : 0 < C) (h : Reachable C q) :
    (try_pop_move q).isSome ∧
    (try_pop_move q = some (q, false, none) ↔
      (q.buffer.getD (q.read_idx % q.size) default).seq_state = q.read_idx) ∧
    ((q.buffer.getD (q.read_idx % q.size) default).seq_state = add_wrap q q.read_idx 1 →
      try_pop_move q =
        some ({ q with
            read_idx := add_wrap q q.read_idx 1
            buffer := q.buffer.set (q.read_idx % q.size)
              ⟨add_wrap q q.read_idx q.size, none, false⟩ },
          true, (q.buffer.getD (q.read_idx % q.size) default).value)) := by
  obtain ⟨l, hs, -⟩ := reachable_sinv hC h
  have hM2 : 2 ≤ q.wrap_at := by
    have h1 := sinv_wrap hs
    have h2 := SInv.size_pos hs
    omega
  have hrlt : q.read_idx < q.wrap_at := (bounds_sinv hs).1
  have hwne : ¬ (q.read_idx = add_wrap q q.read_idx 1) := by
    rw [add_wrap_eq_mod q hrlt (by omega)]
    intro heq
    exact succ_mod_ne hM2 hrlt heq.symm
  refine ⟨?_, ⟨?_, ?_⟩, ?_⟩
  · rcases try_pop_sinv hs true with hfail | ⟨q2, tl, v, -, heq, -, -⟩
    · simp [try_pop_move, hfail]
    · simp [try_pop_move, heq]
  · intro hfeq
    simp only [try_pop_move, try_pop_aux] at hfeq
    split at hfeq
    · simp at hfeq
    · split at hfeq
      · next hcond => exact hcond
      · simp at hfeq
  · intro hsr
    simp only [try_pop_move, try_pop_aux]
    rw [if_neg (by rw [hsr]; exact hwne), if_pos hsr]
  · intro hnext
    simp only [try_pop_move, try_pop_aux]
    rw [if_pos hnext]
    simp

theorem try_pop_protocol_witness :
    (try_pop_move ⟨2, 4, [⟨1, some 0, true⟩, ⟨1, none, false⟩], false, 1, 0⟩).isSome :=
  (try_pop_protocol 2 _ (by decide) ⟨[Op.push 0], [], 0, by decide⟩).1

/-- C5: FIFO among survivors.  When the `i`-th push carries its sequence
number `i` (`Fresh 0 ops`), the chronological list of values returned by
successful pops over any run is strictly increasing: surviving samples are
returned in exactly the order they were pushed. -/
theorem fifo_survivors (C : Nat) (ops : List Op) (q : Queue) (outs : List Nat)
    (F : Nat) (hC : 0 < C) (hf : Fresh 0 ops)
    (h : run (init C) ops = some (q, outs, F)) :
    List.Chain' (· < ·) outs := by
  obtain ⟨q2, outs2, F2, hrun2, hchain, -⟩ :=
    run_fresh ops (q := init C) 0 0 (le_refl 0)
      (by simp [init]) (by simpa using sinv_init hC) hf
  rw [h] at hrun2
  simp only [Option.some.injEq, Prod.mk.injEq] at hrun2
  obtain ⟨-, houts, -⟩ := hrun2
  rw [houts]
  exact hchain

theorem fifo_survivors_witness : List.Chain' (· < ·) [0, 1] :=
  fifo_survivors 2 [Op.push 0, Op.push 1, Op.pop 1, Op.pop 1]
    ⟨2, 4, [⟨2, none, false⟩, ⟨3, none, false⟩], false, 2, 2⟩ [0, 1] 0
    (by decide) ⟨rfl, rfl, trivial⟩ (by decide)

/-- C6: failed `try_push` is pure: whenever the target slot's readiness
marker differs from the write cursor, `try_push` returns `false`
("buffer full", not an error) with the state — cursor, markers and
payloads — entirely unchanged. -/
theorem try_push_failure_atomic (q : Queue) (x : Nat)
    (h : (q.buffer.getD (q.write_idx % q.size) default).seq_state ≠ q.write_idx) :
    try_push q x = (q, false) := by
  simp only [try_push]
  rw [if_pos h]

theorem try_push_failure_atomic_witness :
    try_push ⟨2, 4, [⟨0, none, false⟩, ⟨1, none, false⟩], false, 3, 0⟩ 7
      = (⟨2, 4, [⟨0, none, false⟩, ⟨1, none, false⟩], false, 3, 0⟩, false) :=
  try_push_failure_atomic _ 7 (by decide)

/-- C7: `pop_sample` always yields an explicit result (empty handle rather
than an error when nothing is obtained), and with a non-positive timeout it
never enters the blocking path: it returns exactly the outcome of the
single non-blocking `try_pop`, with the blocking flag `false`. -/
theorem pop_timeout (C : Nat) (q : Queue) (hC : 0 < C) (h : Reachable C q)
    (t : ℚ) :
    (∃ res, pop_sample q t = some res) ∧
    (t ≤ 0 → ∃ q1 ok v, try_pop_move q = some (q1, ok, v) ∧
      pop_sample q t = some (q1, v, false)) := by
  obtain ⟨l, hs, -⟩ := reachable_sinv hC h
  constructor
  · obtain ⟨q2, v, b, heq, -, -⟩ := pop_sample_sinv hs t
    exact ⟨_, heq⟩
  · intro ht
    exact pop_sample_nonpos hs ht

theorem pop_timeout_witness :
    ∃ q1 ok v, try_pop_move ⟨2, 4, [⟨1, some 0, true⟩, ⟨1, none, false⟩], false, 1, 0⟩
        = some (q1, ok, v) ∧
      pop_sample ⟨2, 4, [⟨1, some 0, true⟩, ⟨1, none, false⟩], false, 1, 0⟩ 0
        = some (q1, v, false) :=
  (pop_timeout 2 _ (by decide) ⟨[Op.push 0], [], 0, by decide⟩ 0).2 (le_refl 0)

/-- C8 (counterexample): flush exactness fails at capacity 1.  In the
reachable corrupted capacity-1 state (two pushes into a fresh queue) one
unread sample is resident, yet `flush` immediately sees `marker = read
cursor`, returns 0 and leaves the sample in place. -/
theorem flush_exact_counterexample :
    ¬ (∀ (C : Nat) (q : Queue), 0 < C → Reachable C q →
        ∃ q' n, flush q = some (q', n) ∧ n = unreadCount q ∧ unreadCount q' = 0) := by
  intro h
  obtain ⟨q', n, hf, hn, h0⟩ := h 1 ⟨1, 2, [⟨0, some 1, true⟩], false, 0, 0⟩
    (by decide) ⟨[Op.push 0, Op.push 1], [], 0, by decide⟩
  have hev : flush (⟨1, 2, [⟨0, some 1, true⟩], false, 0, 0⟩ : Queue)
      = some (⟨1, 2, [⟨0, some 1, true⟩], false, 0, 0⟩, 0) := by decide
  rw [hev] at hf
  simp only [Option.some.injEq, Prod.mk.injEq] at hf
  obtain ⟨hq, hn0⟩ := hf
  rw [← hn0] at hn
  have : unreadCount ⟨1, 2, [⟨0, some 1, true⟩], false, 0, 0⟩ = 1 := by decide
  omega

/-- C8 (amended: capacity ≥ 2): flushing a reachable queue holding `K`
unread samples returns `K` and leaves the queue with no unread residents;
flushing an empty queue returns 0; flush never fails (always returns). -/
theorem flush_exact (C : Nat) (q : Queue) (hC : 2 ≤ C) (h : Reachable C q) :
    ∃ q' n, flush q = some (q', n) ∧ n = unreadCount q ∧ unreadCount q' = 0 ∧
      residents q' = [] := by
  obtain ⟨l, hs, hsz⟩ := reachable_sinv (by omega) h
  obtain ⟨q', n, hf, -, -, h2⟩ := flush_sinv hs
  obtain ⟨hn, hs0⟩ := h2 (by omega)
  refine ⟨q', n, hf, ?_, ?_, residents_sinv hs0⟩
  · rw [unreadCount_sinv hs, hn]
  · rw [unreadCount_sinv hs0]
    rfl

theorem flush_exact_witness :
    ∃ q' n, flush ⟨2, 4, [⟨1, some 0, true⟩, ⟨2, some 1, true⟩], false, 2, 0⟩
        = some (q', n) ∧
      n = unreadCount ⟨2, 4, [⟨1, some 0, true⟩, ⟨2, some 1, true⟩], false, 2, 0⟩ ∧
      unreadCount q' = 0 ∧ residents q' = [] :=
  flush_exact 2 _ (by decide) ⟨[Op.push 0, Op.push 1], [], 0, by decide⟩

/-- C9: the one-time visibility barrier.  Over any run of a queue from
construction, the acquire-fence / `done_sync_`-store branch executes at
most once (`F ≤ 1` counts its executions over the whole run), and the
latched flag is monotone: once `done_sync` is true, every later operation
keeps it true and never takes the fence branch again (its fence count is
0). -/
theorem one_time_fence :
    (∀ (C : Nat) (ops : List Op) (q : Queue) (outs : List Nat) (F : Nat),
      run (init C) ops = some (q, outs, F) → F ≤ 1) ∧
    (∀ (q : Queue) (op : Op) (q1 : Queue) (outs : List Nat) (f : Nat),
      step q op = some (q1, outs, f) → q.done_sync = true →
      q1.done_sync = true ∧ f = 0) := by
  constructor
  · intro C ops q outs F h
    have hb := (run_sync ops h).1
    simp only [init] at hb
    split at hb
    · omega
    · omega
  · intro q op q1 outs f h hd
    obtain ⟨h1, -, -, -⟩ := step_sync h
    obtain ⟨hf, hq⟩ := h1 hd
    exact ⟨hq, hf⟩

theorem one_time_fence_witness :
    run (init 2) [Op.push 0, Op.push 1, Op.push 2]
      = some (⟨2, 4, [⟨3, some 2, true⟩, ⟨2, some 1, true⟩], true, 3, 1⟩, [], 1) ∧
    (1 : Nat) ≤ 1 :=
  ⟨by decide,
    one_time_fence.1 2 [Op.push 0, Op.push 1, Op.push 2]
      ⟨2, 4, [⟨3, some 2, true⟩, ⟨2, some 1, true⟩], true, 3, 1⟩ [] 1 (by decide)⟩

/-- C10: index-space closure.  `add_wrap x delta` computes
`(x + delta) mod 2C` for every reduced `x` and `delta ∈ {1, C}` — a single
conditional subtraction never under-corrects — and consequently, in every
reachable state, the write cursor, the read cursor and every slot's
readiness marker lie in `[0, 2C)`. -/
theorem add_wrap_closure :
    (∀ (q : Queue) (x delta : Nat), q.wrap_at = 2 * q.size → 0 < q.size →
      x < q.wrap_at → (delta = 1 ∨ delta = q.size) →
      add_wrap q x delta = (x + delta) % q.wrap_at) ∧
    (∀ (C : Nat) (q : Queue), 0 < C → Reachable C q →
      q.write_idx < q.wrap_at ∧ q.read_idx < q.wrap_at ∧
      ∀ p, p < q.size → (q.buffer.getD p default).seq_state < q.wrap_at) := by
  constructor
  · intro q x delta hM hC hx hd
    apply add_wrap_eq_mod q hx
    rcases hd with rfl | rfl <;> omega
  · intro C q hC h
    obtain ⟨l, hs, -⟩ := reachable_sinv hC h
    obtain ⟨hr, hw, hseq⟩ := bounds_sinv hs
    exact ⟨hw, hr, hseq⟩

theorem add_wrap_closure_witness :
    add_wrap ⟨2, 4, [⟨1, some 0, true⟩, ⟨1, none, false⟩], false, 1, 0⟩ 3 2 = (3 + 2) % 4 ∧
    (⟨2, 4, [⟨1, some 0, true⟩, ⟨1, none, false⟩], false, 1, 0⟩ : Queue).write_idx < 4 :=
  ⟨add_wrap_closure.1 _ 3 2 rfl (by decide) (by decide) (Or.inr rfl),
    (add_wrap_closure.2 2 _ (by decide) ⟨[Op.push 0], [], 0, by decide⟩).1⟩


end ConsumerQueue
